import Mathlib

/-!
Verification of the meeting-analyser pipeline (`src/app.py`).

The program is a linear pipeline: audio normalisation (`preprocess_audio`),
segmentation (`split_audio`), transcription of the segments in sorted filename
order, then minutes generation, productivity filtering
(`evaluate_productivity`) and sentiment labelling (`sentiment_analysis`).

Modelling conventions:
* audio samples are rationals (`ℚ`), standing for the floating-point samples;
  `fdiv` models IEEE division, with `none` standing for a non-finite result
  (NaN or infinity), since dividing by zero does not raise in NumPy;
* external black boxes (the librosa time-stretch, the NLTK sentence tokenizer,
  the VADER compound polarity score, the speech recogniser and the LLM
  summariser) are function parameters, exactly as the spec treats them;
* the filesystem, where a claim needs it, is a map `String → Option (List ℚ)`
  from path to written samples;
* the `while` loop of `split_audio` is embedded with explicit fuel, returning
  `none` when the fuel is exhausted, so that non-termination of the source
  loop is representable rather than assumed away.
-/

namespace MeetingAnalyser

/-- Embeds `np.max(np.abs(audio))`: the greatest absolute sample value,
`0` for the empty signal. -/
def maxAbs (xs : List ℚ) : ℚ :=
  xs.foldr (fun x m => max |x| m) 0

/-- IEEE-style division as performed by NumPy on floats: a zero divisor
yields a non-finite value (NaN or ±infinity), modelled as `none`; no
exception is raised. -/
def fdiv (x y : ℚ) : Option ℚ :=
  if y = 0 then none else some (x / y)

/-- Embeds line 20 of `app.py`, `audio / np.max(np.abs(audio))`: every sample
is divided, unconditionally, by the global maximum absolute sample value.
Each output entry is `none` exactly when the float result is non-finite. -/
def normalize (xs : List ℚ) : List (Option ℚ) :=
  xs.map (fun x => fdiv x (maxAbs xs))

/-- Median of three values. -/
def med3 (a b c : ℚ) : ℚ :=
  max (min a b) (min (max a b) c)

/-- Embeds `scipy.signal.medfilt(audio, kernel_size=3)`: each output sample is
the median of the window centred at that index, with zeroes past the ends. -/
def medfilt3 (xs : List ℚ) : List ℚ :=
  (List.range xs.length).map (fun i =>
    med3 (if i = 0 then 0 else xs.getD (i - 1) 0) (xs.getD i 0) (xs.getD (i + 1) 0))

/-- Embeds the sample transformation of `preprocess_audio` (lines 19-21):
normalisation followed by the window-3 median filter.  When `maxAbs xs = 0`
the unguarded division makes every normalised sample non-finite (see
`normalize`), so no valid waveform exists and the result is `none`. -/
def preprocess_audio (xs : List ℚ) : Option (List ℚ) :=
  if maxAbs xs = 0 then none
  else some (medfilt3 (xs.map (fun x => x / maxAbs xs)))

/-- Embeds `os.path.basename`: the part of the path after the last slash. -/
def basename (p : String) : String :=
  (p.splitOn "/").getLastD ""

/-- Embeds line 24 of `app.py`: the output path
`os.path.join("preprocessed", "preprocessed_" + basename(file_name))`. -/
def outputPath (file_name : String) : String :=
  "preprocessed/preprocessed_" ++ basename file_name

/-- Embeds `preprocess_audio` as an action on the filesystem: read the input
file, transform the samples, write the result at `outputPath file_name`
(overwriting).  `none` models an aborted run (missing input, or the
degenerate all-zero signal). -/
def runPreprocess (fs : String → Option (List ℚ)) (file_name : String) :
    Option (String → Option (List ℚ)) :=
  match fs file_name with
  | none => none
  | some xs =>
    match preprocess_audio xs with
    | none => none
    | some ys => some (fun p => if p = outputPath file_name then some ys else fs p)

/-- Embeds the `while samples_wrote < samples_total` loop of `split_audio`
(lines 40-47).  `buffer` is `segment_duration * sr`; the source shrinks
`buffer` to the remainder on the last pass, which is the same as taking
`min buffer remaining` on every pass since the shrink can only happen when
the loop is about to exhaust the signal.  The fuel argument makes the loop a
total function: `none` means the fuel ran out before the loop finished, which
is how a diverging source loop (a zero `buffer` on a nonempty signal) shows
up in the model. -/
def splitLoop : ℕ → ℕ → List ℚ → ℕ → Option (List (List ℚ))
  | 0, _, _, _ => none
  | fuel + 1, buffer, audio, samples_wrote =>
    if samples_wrote < audio.length then
      let b := min buffer (audio.length - samples_wrote)
      match splitLoop fuel buffer audio (samples_wrote + b) with
      | none => none
      | some rest => some (((audio.drop samples_wrote).take b) :: rest)
    else
      some []

/-- Embeds `split_audio` (lines 29-48): time-stretch the decoded signal with
the external librosa primitive (the `stretch` parameter, rate 0.95 in the
source), then run the splitting loop with window `segment_duration * sr`.
The fuel `length + 1` bounds the number of loop passes; the loop writes at
least one sample per pass whenever the window is positive, so this fuel is
then sufficient. -/
def split_audio (stretch : List ℚ → List ℚ) (segment_duration : ℕ)
    (audio : List ℚ) (sr : ℕ) : Option (List (List ℚ)) :=
  let audio_slow := stretch audio
  splitLoop (audio_slow.length + 1) (segment_duration * sr) audio_slow 0

/-- Lexicographic comparison of code-point sequences, the order Python uses
to compare strings. -/
def lexLe : List ℕ → List ℕ → Bool
  | [], _ => true
  | _ :: _, [] => false
  | a :: as, b :: bs =>
    if a < b then true
    else if b < a then false
    else lexLe as bs

/-- Python string comparison: lexicographic on the code points. -/
def strLe (a b : String) : Bool :=
  lexLe (a.toList.map Char.toNat) (b.toList.map Char.toNat)

/-- The Python string order as a proposition. -/
def pyLe (a b : String) : Prop :=
  strLe a b = true

instance : DecidableRel pyLe :=
  fun a b => inferInstanceAs (Decidable (strLe a b = true))

/-- Embeds Python `sorted` on the segment filenames (line 109): a stable sort
by the lexicographic string order. -/
def sortStrings (l : List String) : List String :=
  List.insertionSort pyLe l

/-- The filenames `split_1.wav .. split_k.wav` that `split_audio` writes, in
order of creation (`counter` starts at 1). -/
def splitNames (k : ℕ) : List String :=
  (List.range' 1 k).map (fun n => "split_" ++ toString n ++ ".wav")

/-- Embeds the transcription loop (lines 110-112): call the recogniser on
each file in order, collecting the `text` fields; an exception from the
recogniser propagates, so the first failure aborts the loop with no result. -/
def transcribeLoop (recognize : String → Except String String) :
    List String → Except String (List String)
  | [] => Except.ok []
  | f :: fs =>
    match recognize f with
    | Except.error e => Except.error e
    | Except.ok t =>
      match transcribeLoop recognize fs with
      | Except.error e => Except.error e
      | Except.ok ts => Except.ok (t :: ts)

/-- Embeds lines 108-112: the per-segment transcription list, with the
directory listing sorted first. -/
def transcription_ls (recognize : String → Except String String)
    (files : List String) : Except String (List String) :=
  transcribeLoop recognize (sortStrings files)

/-- Embeds line 114: the transcript is the fragments joined by a blank
line. -/
def transcription (recognize : String → Except String String)
    (files : List String) : Except String String :=
  match transcription_ls recognize files with
  | Except.error e => Except.error e
  | Except.ok ts => Except.ok (String.intercalate "\n\n" ts)

/-- Wraps a recogniser that never fails as an `Except`-valued one. -/
def pureRec (r : String → String) : String → Except String String :=
  fun f => Except.ok (r f)

/-- Character-list helper: does the candidate start with the pattern? -/
def leadMatch : List Char → List Char → Bool
  | [], _ => true
  | _ :: _, [] => false
  | p :: ps, c :: cs => p == c && leadMatch ps cs

/-- Character-list helper: does the pattern occur contiguously anywhere? -/
def containsSub : List Char → List Char → Bool
  | pat, [] => pat.isEmpty
  | pat, c :: cs => leadMatch pat (c :: cs) || containsSub pat cs

/-- Embeds the Python substring test `keyword in sentence`. -/
def containsSubstr (s pat : String) : Bool :=
  containsSub pat.toList s.toList

/-- The fixed keyword list of `evaluate_productivity` (line 71). -/
def productivity_keywords : List String :=
  ["decision", "transcribe", "program", "task", "action", "plan", "solution",
   "agenda", "discuss"]

/-- The per-sentence test of line 75:
`any(keyword in sentence.lower() for keyword in productivity_keywords)`. -/
def keywordHit (sentence : String) : Bool :=
  productivity_keywords.any (fun keyword => containsSubstr sentence.toLower keyword)

/-- Embeds `evaluate_productivity` (lines 70-77): tokenize into sentences
with the external NLTK tokenizer (the `tok` parameter), then the loop that
appends each sentence whose lowercase form contains a keyword. -/
def evaluate_productivity (tok : String → List String) (transcription : String) :
    List String :=
  (tok transcription).foldl
    (fun productive_segments sentence =>
      if keywordHit sentence then productive_segments ++ [sentence]
      else productive_segments)
    []

/-- Embeds `sentiment_analysis` (lines 80-84): the VADER compound score is
the external `polarity` parameter; line 83 maps it to a three-way label. -/
def sentiment_analysis (polarity : String → ℚ) (text : String) : String :=
  if polarity text ≥ 5/100 then "positive"
  else if polarity text ≤ -(5/100) then "negative"
  else "neutral"

/-- The outputs rendered by steps 3-6 of the script. -/
structure AnalysisOutput where
  transcript : String
  minutes : String
  productive_segments : List String
  overall_sentiment : String
  segment_sentiments : List String
  deriving Repr, DecidableEq

/-- Embeds steps 3-6 of the script body (lines 107-135): transcription, then
minutes, productivity and sentiment, all computed from the transcript.  A
recognition failure propagates: none of the later stages runs and no output
is produced. -/
def runPipeline (recognize : String → Except String String)
    (summarize : String → String) (tok : String → List String)
    (polarity : String → ℚ) (files : List String) :
    Except String AnalysisOutput :=
  match transcription_ls recognize files with
  | Except.error e => Except.error e
  | Except.ok ts =>
    let transcript := String.intercalate "\n\n" ts
    Except.ok
      { transcript := transcript
        minutes :=
          summarize ("Give point-wise minutes of the meeting from this text: "
            ++ transcript)
        productive_segments := evaluate_productivity tok transcript
        overall_sentiment := sentiment_analysis polarity transcript
        segment_sentiments :=
          ts.map (fun seg =>
            "Sentiment for Segment: " ++ sentiment_analysis polarity seg) }

/-! ## Order properties of the Python string comparison -/

theorem lexLe_total : ∀ as bs : List ℕ, lexLe as bs = true ∨ lexLe bs as = true
  | [], _ => Or.inl rfl
  | _ :: _, [] => Or.inr rfl
  | a :: as, b :: bs => by
    simp only [lexLe]
    by_cases h1 : a < b
    · left; simp [h1]
    · by_cases h2 : b < a
      · right; simp [h1, h2]
      · simpa [h1, h2] using lexLe_total as bs

theorem lexLe_trans :
    ∀ as bs cs : List ℕ, lexLe as bs = true → lexLe bs cs = true →
      lexLe as cs = true
  | [], _, _, _, _ => rfl
  | _ :: _, [], _, h1, _ => by simp [lexLe] at h1
  | _ :: _, _ :: _, [], _, h2 => by simp [lexLe] at h2
  | a :: as, b :: bs, c :: cs, h1, h2 => by
    simp only [lexLe] at h1 h2 ⊢
    by_cases hab : a < b
    · by_cases hbc : b < c
      · simp [show a < c by omega]
      · by_cases hcb : c < b
        · simp [hbc, hcb] at h2
        · simp [show a < c by omega]
    · by_cases hba : b < a
      · simp [hab, hba] at h1
      · by_cases hbc : b < c
        · simp [show a < c by omega]
        · by_cases hcb : c < b
          · simp [hbc, hcb] at h2
          · simp only [hab, hba, if_false, if_neg] at h1
            simp only [hbc, hcb, if_false, if_neg] at h2
            simp only [show ¬ a < c by omega, show ¬ c < a by omega,
              if_false, if_neg]
            exact lexLe_trans as bs cs h1 h2

theorem lexLe_antisymm :
    ∀ as bs : List ℕ, lexLe as bs = true → lexLe bs as = true → as = bs
  | [], [], _, _ => rfl
  | [], _ :: _, _, h2 => by simp [lexLe] at h2
  | _ :: _, [], h1, _ => by simp [lexLe] at h1
  | a :: as, b :: bs, h1, h2 => by
    simp only [lexLe] at h1 h2
    by_cases hab : a < b
    · simp [show ¬ b < a by omega, hab] at h2
    · by_cases hba : b < a
      · simp [hab, hba] at h1
      · simp only [hab, hba, if_false, if_neg] at h1 h2
        rw [show a = b by omega, lexLe_antisymm as bs h1 h2]

theorem char_toNat_injective : Function.Injective Char.toNat :=
  fun _ _ h => Char.eq_of_val_eq (UInt32.ext h)

theorem strLe_antisymm (a b : String) (h1 : strLe a b = true)
    (h2 : strLe b a = true) : a = b := by
  have h3 := lexLe_antisymm _ _ h1 h2
  have h4 : a.toList = b.toList :=
    List.map_injective_iff.2 char_toNat_injective h3
  cases a
  cases b
  exact congrArg String.mk h4

instance : IsTotal String pyLe :=
  ⟨fun a b => lexLe_total _ _⟩

instance : IsTrans String pyLe :=
  ⟨fun _ _ _ h1 h2 => lexLe_trans _ _ _ h1 h2⟩

instance : IsAntisymm String pyLe :=
  ⟨fun _ _ h1 h2 => strLe_antisymm _ _ h1 h2⟩

/-- Sorting a permuted listing recovers any sorted arrangement of it. -/
theorem sortStrings_eq_of_perm_sorted {l m : List String} (hp : l.Perm m)
    (hs : m.Sorted pyLe) : sortStrings l = m :=
  List.eq_of_perm_of_sorted ((List.perm_insertionSort pyLe l).trans hp)
    (List.sorted_insertionSort pyLe l) hs

/-! ## Productivity and sentiment lemmas -/

/-- The append-in-a-loop accumulation of `evaluate_productivity` is a filter. -/
theorem foldl_keywordHit (l : List String) :
    ∀ acc : List String,
      l.foldl
        (fun productive_segments sentence =>
          if keywordHit sentence then productive_segments ++ [sentence]
          else productive_segments)
        acc = acc ++ l.filter keywordHit := by
  induction l with
  | nil => intro acc; simp
  | cons a l ih =>
    intro acc
    by_cases h : keywordHit a <;>
      simp [List.filter_cons, h, ih, List.append_assoc]

/-- Whatever the compound score, the label is one of the three. -/
theorem sentiment_analysis_mem (polarity : String → ℚ) (text : String) :
    sentiment_analysis polarity text ∈
      (["positive", "negative", "neutral"] : List String) := by
  unfold sentiment_analysis
  split_ifs <;> decide

/-- C4: for every input text, `sentiment_analysis` returns exactly one of the
three labels, and the label is positive iff the compound score is at least
0.05, negative iff it is at most -0.05, and neutral otherwise. -/
theorem sentiment_analysis_thresholds (polarity : String → ℚ) (text : String) :
    sentiment_analysis polarity text ∈
        (["positive", "negative", "neutral"] : List String) ∧
      (sentiment_analysis polarity text = "positive" ↔
        5/100 ≤ polarity text) ∧
      (sentiment_analysis polarity text = "negative" ↔
        polarity text ≤ -(5/100)) ∧
      (sentiment_analysis polarity text = "neutral" ↔
        ¬ 5/100 ≤ polarity text ∧ ¬ polarity text ≤ -(5/100)) := by
  by_cases h1 : 5/100 ≤ polarity text
  · have h2 : ¬ polarity text ≤ -(5/100) := fun hc => by linarith
    have hl : sentiment_analysis polarity text = "positive" := by
      unfold sentiment_analysis
      rw [if_pos h1]
    rw [hl]
    exact ⟨by decide, ⟨fun _ => h1, fun _ => rfl⟩,
      ⟨fun hc => absurd hc (by decide), fun hc => absurd hc h2⟩,
      ⟨fun hc => absurd hc (by decide), fun hc => absurd h1 hc.1⟩⟩
  · by_cases h2 : polarity text ≤ -(5/100)
    · have hl : sentiment_analysis polarity text = "negative" := by
        unfold sentiment_analysis
        rw [if_neg h1, if_pos h2]
      rw [hl]
      exact ⟨by decide, ⟨fun hc => absurd hc (by decide), fun hc => absurd hc h1⟩,
        ⟨fun _ => h2, fun _ => rfl⟩,
        ⟨fun hc => absurd hc (by decide), fun hc => absurd h2 hc.2⟩⟩
    · have hl : sentiment_analysis polarity text = "neutral" := by
        unfold sentiment_analysis
        rw [if_neg h1, if_neg h2]
      rw [hl]
      exact ⟨by decide, ⟨fun hc => absurd hc (by decide), fun hc => absurd hc h1⟩,
        ⟨fun hc => absurd hc (by decide), fun hc => absurd hc h2⟩,
        ⟨fun _ => ⟨h1, h2⟩, fun _ => rfl⟩⟩

/-- C5: a sentence of the tokenized transcript is kept by
`evaluate_productivity` iff its lowercase form contains one of the fixed
keywords; the kept sentences are the verbatim originals, in their original
order (the result is exactly the filter of the sentence list). -/
theorem evaluate_productivity_membership (tok : String → List String)
    (t : String) :
    evaluate_productivity tok t = (tok t).filter keywordHit ∧
      ∀ s, s ∈ evaluate_productivity tok t ↔
        s ∈ tok t ∧ ∃ k ∈ productivity_keywords,
          containsSubstr s.toLower k = true := by
  have hfil : evaluate_productivity tok t = (tok t).filter keywordHit := by
    unfold evaluate_productivity
    simpa using foldl_keywordHit (tok t) []
  refine ⟨hfil, fun s => ?_⟩
  rw [hfil, List.mem_filter]
  unfold keywordHit
  simp [List.any_eq_true]

/-- C7: on an empty transcript the downstream stages still work: the
productivity scorer returns the empty list and the sentiment scorer returns
one of the three labels. -/
theorem empty_transcript_graceful (tok : String → List String)
    (polarity : String → ℚ) (h : tok "" = []) :
    evaluate_productivity tok "" = [] ∧
      sentiment_analysis polarity "" ∈
        (["positive", "negative", "neutral"] : List String) := by
  constructor
  · unfold evaluate_productivity
    rw [h]
    rfl
  · exact sentiment_analysis_mem polarity ""

/-- Witness for C7 at a concrete tokenizer and polarity scorer. -/
theorem empty_transcript_graceful_witness :
    evaluate_productivity (fun _ => []) "" = [] ∧
      sentiment_analysis (fun _ => 0) "" ∈
        (["positive", "negative", "neutral"] : List String) :=
  empty_transcript_graceful (fun _ => []) (fun _ => 0) rfl

/-! ## Normalisation -/

/-- C2 counterexample: on the all-zero signal `[0, 0, 0]` the unguarded
division of line 20 produces a non-finite (invalid) value for every sample —
the output is produced, not guarded against. -/
theorem normalize_allzero_counterexample :
    normalize [0, 0, 0] = [none, none, none] ∧
      ¬ ∀ y ∈ normalize [0, 0, 0], y ≠ none := by
  constructor
  · decide
  · decide

/-- C2 amended: on an all-zero (nonempty) signal the divisor
`np.max(np.abs(audio))` is zero and the unguarded division yields a
non-finite (invalid) value for every sample; no guard exists and no error is
raised. -/
theorem normalize_allzero (xs : List ℚ) (hne : xs ≠ [])
    (hz : ∀ x ∈ xs, x = 0) :
    maxAbs xs = 0 ∧ normalize xs = xs.map (fun _ => none) := by
  have hmax : maxAbs xs = 0 := by
    clear hne
    induction xs with
    | nil => rfl
    | cons a l ih =>
      have ha : a = 0 := hz a (List.mem_cons_self a l)
      have hl : maxAbs l = 0 := ih (fun x hx => hz x (List.mem_cons_of_mem a hx))
      unfold maxAbs at hl ⊢
      simp [List.foldr_cons, ha, hl]
  refine ⟨hmax, ?_⟩
  unfold normalize fdiv
  rw [hmax]
  simp

/-- Witness for C2 amended at the concrete all-zero signal `[0, 0]`. -/
theorem normalize_allzero_witness :
    maxAbs [0, 0] = 0 ∧
      normalize [0, 0] = ([0, 0] : List ℚ).map (fun _ => none) :=
  normalize_allzero [0, 0] (by decide) (by decide)

theorem le_maxAbs (xs : List ℚ) : ∀ x ∈ xs, |x| ≤ maxAbs xs := by
  induction xs with
  | nil => intro x hx; cases hx
  | cons a l ih =>
    intro x hx
    unfold maxAbs at ih ⊢
    rcases List.mem_cons.1 hx with hx | hx
    · subst hx
      exact le_max_left _ _
    · exact le_trans (ih x hx) (le_max_right _ _)

theorem maxAbs_nonneg (xs : List ℚ) : 0 ≤ maxAbs xs := by
  induction xs with
  | nil => exact le_refl 0
  | cons a l ih =>
    unfold maxAbs at ih ⊢
    exact le_trans ih (le_max_right _ _)

theorem maxAbs_pos (xs : List ℚ) (x : ℚ) (hx : x ∈ xs) (hx0 : x ≠ 0) :
    0 < maxAbs xs :=
  lt_of_lt_of_le (abs_pos.2 hx0) (le_maxAbs xs x hx)

theorem abs_med3_le {a b c B : ℚ} (ha : |a| ≤ B) (hb : |b| ≤ B)
    (hc : |c| ≤ B) : |med3 a b c| ≤ B := by
  rw [abs_le] at ha hb hc ⊢
  unfold med3
  constructor
  · exact le_max_of_le_left (le_min ha.1 hb.1)
  · exact max_le (le_trans (min_le_left _ _) ha.2)
      (le_trans (min_le_right _ _) hc.2)

theorem medfilt3_length (xs : List ℚ) : (medfilt3 xs).length = xs.length := by
  unfold medfilt3
  rw [List.length_map, List.length_range]

theorem medfilt3_abs_le (xs : List ℚ) (B : ℚ) (hB : 0 ≤ B)
    (h : ∀ x ∈ xs, |x| ≤ B) : ∀ y ∈ medfilt3 xs, |y| ≤ B := by
  intro y hy
  unfold medfilt3 at hy
  rw [List.mem_map] at hy
  obtain ⟨i, hi, hyi⟩ := hy
  rw [List.mem_range] at hi
  have hget : ∀ j : ℕ, |xs.getD j 0| ≤ B := by
    intro j
    by_cases hj : j < xs.length
    · rw [List.getD_eq_getElem xs 0 hj]
      exact h _ (xs.getElem_mem hj)
    · rw [List.getD_eq_default xs 0 (by omega)]
      simpa using hB
  subst hyi
  refine abs_med3_le ?_ (hget i) (hget (i + 1))
  by_cases h0 : i = 0
  · simpa [h0] using hB
  · simpa [h0] using hget (i - 1)

/-- C6: for non-silent input the normalizer yields a waveform of the same
sample count whose maximum absolute amplitude is at most 1. -/
theorem preprocess_audio_bounds (xs : List ℚ) (h : ∃ x ∈ xs, x ≠ 0) :
    ∃ ys, preprocess_audio xs = some ys ∧ ys.length = xs.length ∧
      ∀ y ∈ ys, |y| ≤ 1 := by
  obtain ⟨x, hx, hx0⟩ := h
  have hpos : 0 < maxAbs xs := maxAbs_pos xs x hx hx0
  have hne : maxAbs xs ≠ 0 := ne_of_gt hpos
  refine ⟨medfilt3 (xs.map (fun x => x / maxAbs xs)), ?_, ?_, ?_⟩
  · unfold preprocess_audio
    rw [if_neg hne]
  · rw [medfilt3_length, List.length_map]
  · apply medfilt3_abs_le _ _ (by norm_num)
    intro z hz
    rw [List.mem_map] at hz
    obtain ⟨w, hw, hwz⟩ := hz
    subst hwz
    rw [abs_div, abs_of_pos hpos]
    exact (div_le_one hpos).2 (le_maxAbs xs w hw)

/-- Witness for C6 at the concrete signal `[1, 0]`. -/
theorem preprocess_audio_bounds_witness :
    ∃ ys, preprocess_audio [1, 0] = some ys ∧
      ys.length = ([1, 0] : List ℚ).length ∧ ∀ y ∈ ys, |y| ≤ 1 :=
  preprocess_audio_bounds [1, 0] (by decide)

/-- C8: with the input file unchanged, a second normalizer run reads the same
samples, computes the same waveform and overwrites the output file with the
same contents: the filesystem after the second run equals the filesystem
after the first. -/
theorem runPreprocess_idempotent (fs : String → Option (List ℚ)) (f : String)
    (xs : List ℚ) (h1 : fs f = some xs) (h2 : maxAbs xs ≠ 0)
    (h3 : f ≠ outputPath f) :
    ∃ fs2, runPreprocess fs f = some fs2 ∧ runPreprocess fs2 f = some fs2 := by
  have hpre : preprocess_audio xs =
      some (medfilt3 (xs.map (fun x => x / maxAbs xs))) := by
    unfold preprocess_audio
    rw [if_neg h2]
  set ys := medfilt3 (xs.map (fun x => x / maxAbs xs)) with hys
  refine ⟨fun p => if p = outputPath f then some ys else fs p, ?_, ?_⟩
  · unfold runPreprocess
    rw [h1]
    dsimp only
    rw [hpre]
  · have hread : (fun p => if p = outputPath f then some ys else fs p) f
        = some xs := by
      simp only [if_neg h3]
      exact h1
    unfold runPreprocess
    rw [hread]
    dsimp only
    rw [hpre]
    dsimp only
    congr 1
    funext p
    by_cases hp : p = outputPath f
    · simp [hp]
    · simp [hp]

/-- Witness for C8 at a one-file filesystem holding the signal `[1]`. -/
theorem runPreprocess_idempotent_witness :
    ∃ fs2, runPreprocess
        (fun p => if p = "uploaded_audio.wav" then some [(1 : ℚ)] else none)
        "uploaded_audio.wav" = some fs2 ∧
      runPreprocess fs2 "uploaded_audio.wav" = some fs2 :=
  runPreprocess_idempotent _ "uploaded_audio.wav" [1] (by simp) (by decide)
    (by decide)

/-! ## Transcription -/

theorem transcribeLoop_pure (r : String → String) :
    ∀ m : List String, transcribeLoop (pureRec r) m = Except.ok (m.map r) := by
  intro m
  induction m with
  | nil => rfl
  | cons a m ih =>
    unfold transcribeLoop
    rw [ih]
    rfl

/-- C3: the transcript is the per-segment fragments joined with a blank line,
in the order given by the lexicographic sort of the segment filenames; for
any directory listing that is a permutation of `split_1.wav .. split_k.wav`
with `1 ≤ k ≤ 9`, that sorted order is exactly the temporal (numeric)
order. -/
theorem transcription_sorted (r : String → String) (k : ℕ) (h1 : 1 ≤ k)
    (h2 : k ≤ 9) (l : List String) (hl : l.Perm (splitNames k)) :
    transcription (pureRec r) l =
      Except.ok (String.intercalate "\n\n" ((splitNames k).map r)) := by
  have hsort : sortStrings l = splitNames k := by
    apply sortStrings_eq_of_perm_sorted hl
    interval_cases k <;> decide
  unfold transcription transcription_ls
  rw [hsort, transcribeLoop_pure]

/-- Witness for C3: three segment files listed out of order. -/
theorem transcription_sorted_witness :
    transcription (pureRec (fun f => f))
        ["split_2.wav", "split_1.wav", "split_3.wav"] =
      Except.ok (String.intercalate "\n\n"
        ((splitNames 3).map (fun f => f))) :=
  transcription_sorted (fun f => f) 3 (by decide) (by decide)
    ["split_2.wav", "split_1.wav", "split_3.wav"] (by decide)

theorem transcribeLoop_error (recognize : String → Except String String) :
    ∀ (m : List String) (f : String) (e0 : String), f ∈ m →
      recognize f = Except.error e0 →
      ∃ e, transcribeLoop recognize m = Except.error e := by
  intro m
  induction m with
  | nil => intro f e0 hf _; cases hf
  | cons a m ih =>
    intro f e0 hf he
    rcases hr : recognize a with e | t
    · exact ⟨e, by unfold transcribeLoop; rw [hr]⟩
    · rcases List.mem_cons.1 hf with hf | hf
      · subst hf
        rw [he] at hr
        cases hr
      · obtain ⟨e, hm⟩ := ih f e0 hf he
        refine ⟨e, ?_⟩
        unfold transcribeLoop
        rw [hr, hm]

/-- C9: if the recogniser fails on any segment in the directory, the whole
run aborts with an error: no pipeline output (no transcript, minutes,
productivity or sentiment result) is produced. -/
theorem recognition_failure_aborts (recognize : String → Except String String)
    (summarize : String → String) (tok : String → List String)
    (polarity : String → ℚ) (files : List String) (f : String) (e0 : String)
    (hf : f ∈ files) (he : recognize f = Except.error e0) :
    ∃ e, runPipeline recognize summarize tok polarity files
      = Except.error e := by
  have hf2 : f ∈ sortStrings files :=
    ((List.perm_insertionSort pyLe files).mem_iff).2 hf
  obtain ⟨e, hl⟩ := transcribeLoop_error recognize (sortStrings files) f e0 hf2 he
  refine ⟨e, ?_⟩
  unfold runPipeline transcription_ls
  rw [hl]

/-- Witness for C9: a recogniser that fails on the single segment. -/
theorem recognition_failure_aborts_witness :
    ∃ e, runPipeline (fun _ => Except.error "asr failed") (fun s => s)
        (fun _ => []) (fun _ => 0) ["split_1.wav"] = Except.error e :=
  recognition_failure_aborts (fun _ => Except.error "asr failed") (fun s => s)
    (fun _ => []) (fun _ => 0) ["split_1.wav"] "split_1.wav" "asr failed"
    (by decide) rfl

/-! ## Segmentation -/

theorem splitLoop_succ (fuel buffer : ℕ) (audio : List ℚ) (wrote : ℕ) :
    splitLoop (fuel + 1) buffer audio wrote =
      if wrote < audio.length then
        match splitLoop fuel buffer audio
            (wrote + min buffer (audio.length - wrote)) with
        | none => none
        | some rest =>
          some ((audio.drop wrote).take (min buffer (audio.length - wrote))
            :: rest)
      else some [] := rfl

/-- Full behaviour of the splitting loop, by induction on the fuel: with a
positive window and enough fuel the loop finishes, its blocks concatenate to
the unread suffix, every block except the last is one full window, every
block is nonempty and at most one window, and the number of blocks is the
number of windows needed to cover the suffix. -/
theorem splitLoop_spec :
    ∀ (fuel buffer : ℕ) (audio : List ℚ) (wrote : ℕ), 0 < buffer →
      audio.length - wrote < fuel →
      ∃ segs, splitLoop fuel buffer audio wrote = some segs ∧
        segs.flatten = audio.drop wrote ∧
        (∀ i, i + 1 < segs.length → (segs.getD i []).length = buffer) ∧
        (∀ s ∈ segs, 0 < s.length ∧ s.length ≤ buffer) ∧
        segs.length = (audio.length - wrote + buffer - 1) / buffer := by
  intro fuel
  induction fuel with
  | zero =>
    intro buffer audio wrote _ hf
    omega
  | succ fuel ih =>
    intro buffer audio wrote hb hf
    by_cases hlt : wrote < audio.length
    · have hble : min buffer (audio.length - wrote) ≤ audio.length - wrote :=
        min_le_right _ _
      set b := min buffer (audio.length - wrote) with hbdef
      have hb0 : 0 < b := by omega
      obtain ⟨rest, hrest, hjoin, hsize, hbounds, hcount⟩ :=
        ih buffer audio (wrote + b) hb (by omega)
      have hblock : ((audio.drop wrote).take b).length = b := by
        rw [List.length_take, List.length_drop]
        omega
      refine ⟨(audio.drop wrote).take b :: rest, ?_, ?_, ?_, ?_, ?_⟩
      · rw [splitLoop_succ, if_pos hlt, ← hbdef, hrest]
      · rw [List.flatten_cons, hjoin, ← List.drop_drop]
        exact List.take_append_drop b (audio.drop wrote)
      · intro i hi
        simp only [List.length_cons] at hi
        cases i with
        | zero =>
          have hrem : 0 < audio.length - (wrote + b) := by
            by_contra hc
            have h0 : audio.length - (wrote + b) = 0 := by omega
            have hr0 : rest.length = 0 := by
              rw [hcount, h0, Nat.zero_add]
              exact Nat.div_eq_of_lt (by omega)
            omega
          have hbb : b = buffer := by omega
          rw [List.getD_cons_zero, hblock, hbb]
        | succ j =>
          rw [List.getD_cons_succ]
          exact hsize j (by omega)
      · intro s hs
        rcases List.mem_cons.1 hs with hs | hs
        · subst hs
          rw [hblock]
          omega
        · exact hbounds s hs
      · rw [List.length_cons, hcount]
        by_cases hcase : buffer ≤ audio.length - wrote
        · have h1 : audio.length - (wrote + b) + buffer - 1
              = audio.length - wrote - 1 := by omega
          have h2 : audio.length - wrote + buffer - 1
              = (audio.length - wrote - 1) + buffer := by omega
          rw [h1, h2, Nat.add_div_right _ hb]
        · have h0 : audio.length - (wrote + b) = 0 := by omega
          have h2 : audio.length - wrote + buffer - 1
              = (audio.length - wrote - 1) + buffer := by omega
          rw [h0, Nat.zero_add, Nat.div_eq_of_lt (by omega), h2,
            Nat.add_div_right _ hb, Nat.div_eq_of_lt (by omega)]
    · refine ⟨[], ?_, ?_, ?_, ?_, ?_⟩
      · rw [splitLoop_succ, if_neg hlt]
      · rw [List.flatten_nil, List.drop_eq_nil_of_le (by omega)]
      · intro i hi
        simp at hi
      · intro s hs
        cases hs
      · rw [List.length_nil, show audio.length - wrote = 0 by omega,
          Nat.zero_add, Nat.div_eq_of_lt (by omega)]

/-- C1: with a positive window, `split_audio` partitions the time-stretched
sample sequence: the blocks concatenate back to the stretched signal (no
sample dropped or duplicated), every block except possibly the last is
exactly `segment_duration * sr` samples, the last holds the remainder (never
padded, so nonempty and at most one window), and a zero-length input yields
zero segments. -/
theorem split_audio_partition (stretch : List ℚ → List ℚ)
    (segment_duration : ℕ) (audio : List ℚ) (sr : ℕ)
    (hw : 0 < segment_duration * sr) (hs : stretch [] = []) :
    ∃ segs, split_audio stretch segment_duration audio sr = some segs ∧
      segs.flatten = stretch audio ∧
      (∀ i, i + 1 < segs.length →
        (segs.getD i []).length = segment_duration * sr) ∧
      (∀ s ∈ segs, 0 < s.length ∧ s.length ≤ segment_duration * sr) ∧
      (audio = [] → segs = []) := by
  obtain ⟨segs, h1, h2, h3, h4, h5⟩ :=
    splitLoop_spec ((stretch audio).length + 1) (segment_duration * sr)
      (stretch audio) 0 hw (by omega)
  refine ⟨segs, ?_, ?_, h3, h4, ?_⟩
  · unfold split_audio
    exact h1
  · rw [h2, List.drop_zero]
  · intro ha
    subst ha
    rw [hs] at h5
    simp only [List.length_nil, Nat.zero_sub, Nat.zero_add] at h5
    rw [Nat.div_eq_of_lt (by omega)] at h5
    exact List.length_eq_zero.1 h5

/-- Witness for C1: a 3-sample signal, identity stretch, window 2. -/
theorem split_audio_partition_witness :
    ∃ segs, split_audio (fun l => l) 2 ([1, 2, 3] : List ℚ) 1 = some segs ∧
      segs.flatten = (fun l : List ℚ => l) [1, 2, 3] ∧
      (∀ i, i + 1 < segs.length → (segs.getD i []).length = 2 * 1) ∧
      (∀ s ∈ segs, 0 < s.length ∧ s.length ≤ 2 * 1) ∧
      (([1, 2, 3] : List ℚ) = [] → segs = []) :=
  split_audio_partition (fun l => l) 2 [1, 2, 3] 1 (by decide) rfl

/-- C10: with a positive window `segment_duration * sr`, the splitting loop
terminates within `length + 1` passes and produces exactly
`ceil(samples_total / window)` segments, written here as
`(samples_total + window - 1) / window`. -/
theorem split_audio_terminates (stretch : List ℚ → List ℚ)
    (segment_duration : ℕ) (audio : List ℚ) (sr : ℕ)
    (hw : 0 < segment_duration * sr) :
    ∃ segs, split_audio stretch segment_duration audio sr = some segs ∧
      segs.length = ((stretch audio).length + segment_duration * sr - 1)
        / (segment_duration * sr) := by
  obtain ⟨segs, h1, _, _, _, h5⟩ :=
    splitLoop_spec ((stretch audio).length + 1) (segment_duration * sr)
      (stretch audio) 0 hw (by omega)
  refine ⟨segs, ?_, ?_⟩
  · unfold split_audio
    exact h1
  · simpa using h5

/-- Witness for C10 at the same concrete 3-sample input. -/
theorem split_audio_terminates_witness :
    ∃ segs, split_audio (fun l => l) 2 ([1, 2, 3] : List ℚ) 1 = some segs ∧
      segs.length = (((fun l : List ℚ => l) [1, 2, 3]).length + 2 * 1 - 1)
        / (2 * 1) :=
  split_audio_terminates (fun l => l) 2 [1, 2, 3] 1 (by decide)

end MeetingAnalyser
